import Mathlib

/-!
Verification of the cleaning layer (fika/cleaning/clean.py) and the
classification-metric layer (nyx/model_analysis/classification_model_analysis.py).

Tables are modelled column-major: a table is a list of named columns, and a
missing entry (NaN) is modelled as `none`.  The cell type is a parameter `α`
with decidable equality.  The stored train/test pair of the `Clean` object is a
`State`.  Methods that can raise are modelled in `Except`; methods whose raise
can leave a partially mutated object return a pair of the outcome and the
resulting state.
-/

/-- A table cell; `none` models a missing value (NaN). -/
abbrev Cell (α : Type) := Option α

/-- A named column: column label together with its data. -/
abbrev Col (α : Type) := String × List (Cell α)

/-- A column-labelled 2-D table (pandas DataFrame). -/
structure Table (α : Type) where
  cols : List (Col α)
  deriving DecidableEq

/-- The column labels of a table, in order (`df.columns`). -/
def Table.names {α : Type} (t : Table α) : List String :=
  t.cols.map (fun c => c.1)

/-- Look up a column by label; pandas returns the first matching column. -/
def Table.lookup {α : Type} (t : Table α) (n : String) : Option (Col α) :=
  t.cols.find? (fun c => c.1 == n)

/-- Data of the column labelled `n` (empty when absent). -/
def Table.colData {α : Type} (t : Table α) (n : String) : List (Cell α) :=
  ((t.lookup n).map (fun c => c.2)).getD []

/-- Number of rows (length of the first column; 0 for an empty table). -/
def Table.nrows {α : Type} (t : Table α) : Nat :=
  ((t.cols.head?).map (fun c => c.2.length)).getD 0

/-- Entry of column `c` in row `i` (out of range reads as missing). -/
def cellAt {α : Type} (c : Col α) (i : Nat) : Cell α :=
  (c.2.get? i).getD none

/-- Row `i` of a table, one cell per column. -/
def Table.row {α : Type} (t : Table α) (i : Nat) : List (Cell α) :=
  t.cols.map (fun c => cellAt c i)

/-- The rows of a table in order (`df.values`). -/
def Table.rows {α : Type} (t : Table α) : List (List (Cell α)) :=
  (List.range t.nrows).map t.row

/-- The train/test pair stored on the Clean object (`self.train_data` /
`self.test_data`, also aliased `x_train` / `x_test`); the test table is
optional. -/
structure State (α : Type) where
  train : Table α
  test : Option (Table α)
  deriving DecidableEq

/-- Number of missing entries of a column (`isnull().sum()`). -/
def countMissing {α : Type} (l : List (Cell α)) : Nat :=
  l.countP (fun x => x.isNone)

/-- Number of present entries of a column (non-NA count used by `dropna`). -/
def countValid {α : Type} (l : List (Cell α)) : Nat :=
  l.countP (fun x => x.isSome)

/-- Fraction of missing entries (`isnull().mean()`); the mean of an empty
column is NaN in pandas, which the drop operations treat via an explicit
emptiness test. -/
def fracMissing {α : Type} (l : List (Cell α)) : ℚ :=
  (countMissing l : ℚ) / (l.length : ℚ)

/-- Python's builtin `round` on an exact value: round half to even. -/
def pythonRound (q : ℚ) : ℤ :=
  let f := ⌊q⌋
  let r := q - (f : ℚ)
  if r < 1/2 then f
  else if 1/2 < r then f + 1
  else if f % 2 = 0 then f else f + 1

/-- Column selection by a list of labels (`df[list_of_labels]`). Pandas keeps
the listed order; labels absent from the table (which pandas rejects) are
skipped, and every theorem below supplies presence of the labels. -/
def Table.selectCols {α : Type} (t : Table α) (ns : List String) : Table α :=
  ⟨ns.filterMap (fun n => t.lookup n)⟩

/-- Embedding of `Clean.drop_column_missing_threshold` (clean.py lines
36-48): validate the threshold, keep the train columns whose missing fraction
is strictly below it, and select the same labels on the test table.  A raise
leaves the stored tables unchanged. -/
def drop_column_missing_threshold {α : Type} (th : ℚ) (s : State α) :
    Except String Unit × State α :=
  if th > 1 ∨ th < 0 then
    (Except.error "Threshold cannot be greater than 1 or less than 0.", s)
  else
    let keep := (s.train.cols.filter
      (fun c => decide (0 < c.2.length ∧ fracMissing c.2 < th))).map (fun c => c.1)
    (Except.ok (),
      { train := s.train.selectCols keep,
        test := s.test.map (fun te => te.selectCols keep) })

/-- Rows kept by `df.dropna(thresh = k, axis = 0)`: those with at least `k`
non-NA entries. -/
def dropRowsThresh {α : Type} (k : ℤ) (t : Table α) : Table α :=
  let kept := (List.range t.nrows).filter (fun i => decide (k ≤ (countValid (t.row i) : ℤ)))
  ⟨t.cols.map (fun c => (c.1, kept.map (fun i => cellAt c i)))⟩

/-- Embedding of `Clean.drop_rows_missing_threshold` (clean.py lines 131-143):
validate the threshold, then `dropna(thresh = round(ncols * threshold))` on
each table independently. -/
def drop_rows_missing_threshold {α : Type} (th : ℚ) (s : State α) :
    Except String Unit × State α :=
  if th > 1 ∨ th < 0 then
    (Except.error "Threshold cannot be greater than 1 or less than 0.", s)
  else
    (Except.ok (),
      { train := dropRowsThresh (pythonRound ((s.train.cols.length : ℚ) * th)) s.train,
        test := s.test.map
          (fun te => dropRowsThresh (pythonRound ((te.cols.length : ℚ) * th)) te) })

/-- First-occurrence deduplication, with an accumulator of values seen so
far. -/
def firstDedupAux {α : Type} [DecidableEq α] (seen : List α) : List α → List α
  | [] => []
  | a :: rest =>
    if a ∈ seen then firstDedupAux seen rest else a :: firstDedupAux (a :: seen) rest

/-- First-occurrence deduplication of a list (distinct values in order of
first appearance). -/
def firstDedup {α : Type} [DecidableEq α] (l : List α) : List α :=
  firstDedupAux [] l

/-- Number of distinct non-missing values of a column (`Series.nunique()`,
which ignores NaN). -/
def nunique {α : Type} [DecidableEq α] (l : List (Cell α)) : Nat :=
  (firstDedup (l.filterMap id)).length

/-- Embedding of the keep-columns loop of `Clean.drop_constant_columns`
(clean.py lines 66-74).  The per-column unique count is a fallible
computation `f` (the pandas call sits inside a try/except); an `ok` count of 0
or 1 drops the column, any other `ok` count keeps it, and an exception logs a
message and drops the column.  Returns the kept labels and the log. -/
def constantKeepLoop {α : Type} (f : Col α → Except String Nat) (cols : List (Col α)) :
    List String × List String :=
  cols.foldl
    (fun acc c =>
      match f c with
      | Except.ok n => if n = 0 ∨ n = 1 then acc else (acc.1 ++ [c.1], acc.2)
      | Except.error _ => (acc.1, acc.2 ++ ["Column " ++ c.1 ++ " could not be processed."]))
    ([], [])

/-- The keep condition of the constant-column loop: the unique count was
computed and is neither 0 nor 1. -/
def keepPred {α : Type} (f : Col α → Except String Nat) (c : Col α) : Bool :=
  match f c with
  | Except.ok n => !(decide (n = 0 ∨ n = 1))
  | Except.error _ => false

/-- The log condition of the constant-column loop: the unique count raised. -/
def errPred {α : Type} (f : Col α → Except String Nat) (c : Col α) : Bool :=
  match f c with
  | Except.ok _ => false
  | Except.error _ => true

/-- Embedding of `Clean.drop_constant_columns` (clean.py lines 51-80) with the
pure unique count (no pandas failure). -/
def drop_constant_columns {α : Type} [DecidableEq α] (s : State α) : State α :=
  let keep := (constantKeepLoop (fun c => Except.ok (nunique c.2)) s.train.cols).1
  { train := s.train.selectCols keep,
    test := s.test.map (fun te => te.selectCols keep) }

/-- Embedding of `Clean.drop_unique_columns` (clean.py lines 83-110): keep the
train columns whose unique count differs from the row count, and select the
same labels on the test table. -/
def drop_unique_columns {α : Type} [DecidableEq α] (s : State α) : State α :=
  let keep := (s.train.cols.filter
    (fun c => decide (nunique c.2 ≠ s.train.nrows))).map (fun c => c.1)
  { train := s.train.selectCols keep,
    test := s.test.map (fun te => te.selectCols keep) }

/-- Deduplication of columns by their data (`df.T.drop_duplicates().T`): the
first column of each group with identical values survives; labels are ignored
by the comparison. -/
def dedupColsByValues {α : Type} [DecidableEq α] (t : Table α) : Table α :=
  ⟨t.cols.foldl (fun acc c => if acc.any (fun c0 => decide (c0.2 = c.2)) then acc else acc ++ [c]) []⟩

/-- Embedding of `Clean.drop_duplicate_columns` (clean.py lines 450-455): each
table is deduplicated independently by its own column values. -/
def drop_duplicate_columns {α : Type} [DecidableEq α] (s : State α) : State α :=
  { train := dedupColsByValues s.train,
    test := s.test.map dedupColsByValues }

/-- Column assignment `df[n] = d`: overwrite an existing column in place,
otherwise append a new column at the end. -/
def Table.setCol {α : Type} (t : Table α) (n : String) (d : List (Cell α)) : Table α :=
  if t.names.contains n then ⟨t.cols.map (fun c => if c.1 == n then (c.1, d) else c)⟩
  else ⟨t.cols ++ [(n, d)]⟩

/-- Column removal `df.drop([n], axis=1)`. -/
def Table.dropCol {α : Type} (t : Table α) (n : String) : Table α :=
  ⟨t.cols.filter (fun c => !(c.1 == n))⟩

/-- The indicator data written by `replace_missing_indicator`: the missing
indicator where the source entry is null, the valid indicator elsewhere
(clean.py lines 743-746). -/
def indicatorData {α : Type} (mi vi : α) (d : List (Cell α)) : List (Cell α) :=
  d.map (fun x => some (if x.isNone then mi else vi))

/-- One column step of `Clean.replace_missing_indicator`: look the target up
(pandas raises KeyError when it is absent), write the `_missing` indicator
column, and drop the target when `keep_col` is false. -/
def addIndicator {α : Type} (mi vi : α) (keep_col : Bool) (n : String) (t : Table α) :
    Except String (Table α) :=
  match t.lookup n with
  | none => Except.error ("KeyError: " ++ n)
  | some c =>
    let t1 := t.setCol (n ++ "_missing") (indicatorData mi vi c.2)
    Except.ok (if keep_col then t1 else t1.dropCol n)

/-- Embedding of `Clean.replace_missing_indicator` (clean.py lines 740-760):
for each target column in order, add the indicator column to the train table
and then to the test table when one is present. -/
def replace_missing_indicator {α : Type} (mi vi : α) (keep_col : Bool)
    (cols : List String) (s : State α) : Except String (State α) :=
  cols.foldlM
    (fun st n => do
      let tr ← addIndicator mi vi keep_col n st.train
      match st.test with
      | some te => do
        let te2 ← addIndicator mi vi keep_col n te
        pure { train := tr, test := some te2 }
      | none => pure { train := tr, test := (none : Option (Table α)) })
    s

/-- Normalized value counts of a column (`Series.value_counts(normalize=True)`):
each distinct non-missing value paired with its frequency among the
non-missing entries.  Pandas additionally sorts by descending count; the order
is irrelevant to the properties below, which quantify over the sampler. -/
def valueCounts {α : Type} [DecidableEq α] (l : List (Cell α)) : List (α × ℚ) :=
  let vs := l.filterMap id
  (firstDedup vs).map (fun v => (v, (vs.count v : ℚ) / (vs.length : ℚ)))

/-- Positional fill `df.loc[mask, col] = arr`: the k-th missing entry receives
the k-th replacement, present entries are untouched.  (Pandas raises on a
length mismatch; the callers below always pass exactly as many replacements
as there are missing entries.) -/
def fillMissing {α : Type} : List (Cell α) → List α → List (Cell α)
  | [], _ => []
  | none :: rest, r :: rs => some r :: fillMissing rest rs
  | none :: rest, [] => none :: fillMissing rest []
  | some v :: rest, rs => some v :: fillMissing rest rs

/-- One column step of `Clean.replace_missing_random_discrete` (clean.py lines
490-508): the sampling distribution is the normalized value counts of the
TRAIN column, and the missing entries of the train column and then of the
test column are filled with draws from it.  `sample d k` models
`np.random.choice(d.index, size=k, p=d.values)`. -/
def randomDiscreteStep {α : Type} [DecidableEq α]
    (sample : List (α × ℚ) → Nat → List α) (n : String) (s : State α) :
    Except String (State α) :=
  match s.train.lookup n with
  | none => Except.error ("KeyError: " ++ n)
  | some ctr =>
    let probs := valueCounts ctr.2
    let tr := s.train.setCol n (fillMissing ctr.2 (sample probs (countMissing ctr.2)))
    match s.test with
    | none => Except.ok { train := tr, test := none }
    | some te =>
      match te.lookup n with
      | none => Except.error ("KeyError: " ++ n)
      | some cte =>
        Except.ok
          { train := tr,
            test := some (te.setCol n (fillMissing cte.2 (sample probs (countMissing cte.2)))) }

/-- Embedding of `Clean.replace_missing_random_discrete`: the per-column step
applied over the selected columns in order. -/
def replace_missing_random_discrete {α : Type} [DecidableEq α]
    (sample : List (α × ℚ) → Nat → List α) (cols : List String) (s : State α) :
    Except String (State α) :=
  cols.foldlM (fun st n => randomDiscreteStep sample n st) s

/-- `pd.DataFrame(data=rows, columns=ns)`: rebuild a table from a row-major
value array and a list of labels. -/
def mkDataFrame {α : Type} (rows : List (List α)) (ns : List String) : Table α :=
  ⟨ns.enum.map (fun p => (p.2, rows.map (fun r => r.get? p.1)))⟩

/-- Embedding of `Clean.replace_missing_knn` (clean.py lines 547-562).
`impute` models `KNNImputer(...).fit_transform` on the row-major values of a
table.  The local `test_knn_transformed` is bound only inside the
`if self.test_data is not None` branch, yet the final assignment
`self.test_data = pd.DataFrame(data=test_knn_transformed, ...)` reads it
unconditionally: with no test table the method raises NameError there, after
`self.train_data` has already been reassigned. -/
def replace_missing_knn {α : Type} (impute : List (List (Cell α)) → List (List α))
    (s : State α) : Except String Unit × State α :=
  let columns := s.train.names
  let train_knn_transformed := impute s.train.rows
  match s.test with
  | some te =>
    let test_knn_transformed := impute te.rows
    (Except.ok (),
      { train := mkDataFrame train_knn_transformed columns,
        test := some (mkDataFrame test_knn_transformed columns) })
  | none =>
    (Except.error "NameError: name test_knn_transformed is not defined",
      { train := mkDataFrame train_knn_transformed columns, test := none })

/-- The model-analysis context (nyx/model_analysis): held-out labels, cached
predictions, the held-out features (abstract type `β`), and the model handle
reduced to its optional decision-function capability. -/
structure ClassificationModelAnalysis (α β : Type) where
  y_test : List α
  y_pred : List α
  x_test : β
  decision_function : Option (β → List ℚ)

/-- The external formula `sklearn.metrics.accuracy_score(y_true, y_pred)`
(normalize=True): the mean of the elementwise equality mask. -/
def accuracy_score {α : Type} [DecidableEq α] (y_true y_pred : List α) : ℚ :=
  (((y_true.zip y_pred).map (fun p => if p.1 = p.2 then (1 : ℚ) else 0)).sum) /
    (y_true.length : ℚ)

/-- Embedding of `ClassificationModelAnalysis.accuracy` (lines 51-65):
delegate to the external accuracy formula on the stored labels and cached
predictions. -/
def ClassificationModelAnalysis.accuracy {α β : Type} [DecidableEq α]
    (m : ClassificationModelAnalysis α β) : ℚ :=
  accuracy_score m.y_test m.y_pred

/-- A Python float result that may be the NaN sentinel. -/
inductive PyFloat where
  | nan : PyFloat
  | val : ℚ → PyFloat
  deriving DecidableEq

/-- Embedding of `ClassificationModelAnalysis.average_precision` (lines
100-105): when the model has a decision function, apply the external
average-precision formula (`apScore` models
`sklearn.metrics.average_precision_score`) to the stored labels and the
decision-function output on the held-out features; otherwise return np.nan. -/
def ClassificationModelAnalysis.average_precision {α β : Type}
    (apScore : List α → List ℚ → ℚ) (m : ClassificationModelAnalysis α β) : PyFloat :=
  match m.decision_function with
  | some df => PyFloat.val (apScore m.y_test (df m.x_test))
  | none => PyFloat.nan

/-- A train/test pair sharing the column schema on which duplicate-column
removal separates the schemas: the two test columns hold identical values
while the two train columns do not. -/
def dupCexState : State ℤ :=
  ⟨⟨[("a", [some 1]), ("b", [some 2])]⟩, some ⟨[("a", [some 1]), ("b", [some 1])]⟩⟩

/-- A small train/test pair sharing the column schema, used to instantiate the
schema-preservation theorem. -/
def schemaWitnessState : State ℤ :=
  ⟨⟨[("a", [some 1]), ("b", [none])]⟩, some ⟨[("a", [some 2]), ("b", [some 3])]⟩⟩

example : pythonRound ((1 : ℚ) * (1/2)) = 0 := by norm_num [pythonRound]
example : pythonRound ((3 : ℚ) * (1/2)) = 2 := by norm_num [pythonRound]
example : fracMissing [(none : Cell ℤ), some 3] = 1/2 := by
  norm_num [fracMissing, countMissing]

theorem map_filter_comm {γ δ : Type} (f : γ → δ) (p : δ → Bool) (l : List γ) :
    (l.filter (fun a => p (f a))).map f = (l.map f).filter p := by
  induction l with
  | nil => rfl
  | cons a l ih =>
    by_cases h : p (f a)
    · simp [List.filter_cons, h, ih]
    · simp [List.filter_cons, h, ih]

theorem Table.lookup_eq_name {α : Type} (t : Table α) (n : String) (c : Col α)
    (h : t.lookup n = some c) : c.1 = n := by
  have h2 := List.find?_some h
  simpa using h2

theorem Table.lookup_mem {α : Type} (t : Table α) (n : String) (c : Col α)
    (h : t.lookup n = some c) : c ∈ t.cols :=
  List.mem_of_find?_eq_some h

theorem Table.lookup_isSome_iff {α : Type} (t : Table α) (n : String) :
    (t.lookup n).isSome ↔ n ∈ t.names := by
  rw [Table.lookup, List.find?_isSome, Table.names]
  constructor
  · rintro ⟨c, hc, he⟩
    exact List.mem_map.2 ⟨c, hc, by simpa using he⟩
  · rintro hm
    rcases List.mem_map.1 hm with ⟨c, hc, he⟩
    exact ⟨c, hc, by simpa using he⟩

theorem Table.lookup_cons {α : Type} (c : Col α) (cs : List (Col α)) (n : String) :
    Table.lookup ⟨c :: cs⟩ n = if c.1 = n then some c else Table.lookup ⟨cs⟩ n := by
  by_cases h : c.1 = n
  · simp [Table.lookup, List.find?_cons, h]
  · simp [Table.lookup, List.find?_cons, h]

theorem filterMap_lookup_cons_ne {α : Type} (c : Col α) (cs : List (Col α))
    (ns : List String) (h : ∀ n ∈ ns, n ≠ c.1) :
    ns.filterMap (fun n => Table.lookup ⟨c :: cs⟩ n) =
      ns.filterMap (fun n => Table.lookup ⟨cs⟩ n) := by
  apply List.filterMap_congr
  intro n hn
  rw [Table.lookup_cons]
  rw [if_neg (fun he => (h n hn) he.symm)]

theorem selectCols_filter {α : Type} (t : Table α) (p : Col α → Bool)
    (hnd : t.names.Nodup) :
    (t.selectCols ((t.cols.filter p).map (fun c => c.1))).cols = t.cols.filter p := by
  obtain ⟨cs⟩ := t
  simp only [Table.selectCols]
  induction cs with
  | nil => simp
  | cons c cs ih =>
    have hnd1 : (c.1 :: cs.map (fun c => c.1)).Nodup := by
      simpa [Table.names] using hnd
    have hc1 : c.1 ∉ cs.map (fun c => c.1) := (List.nodup_cons.1 hnd1).1
    have hnd2 : (Table.mk cs).names.Nodup := by
      simpa [Table.names] using (List.nodup_cons.1 hnd1).2
    have hrest : ∀ n ∈ (cs.filter p).map (fun c => c.1), n ≠ c.1 := by
      intro n hn hne
      rcases List.mem_map.1 hn with ⟨c2, hc2, he⟩
      exact hc1 (List.mem_map.2 ⟨c2, List.mem_of_mem_filter hc2, by rw [he, hne]⟩)
    by_cases hp : p c
    · rw [List.filter_cons_of_pos hp, List.map_cons, List.filterMap_cons]
      have hl : Table.lookup ⟨c :: cs⟩ c.1 = some c := by
        rw [Table.lookup_cons, if_pos rfl]
      rw [hl]
      rw [filterMap_lookup_cons_ne c cs _ hrest]
      rw [ih hnd2]
    · rw [List.filter_cons_of_neg hp]
      rw [filterMap_lookup_cons_ne c cs _ hrest]
      exact ih hnd2

theorem names_selectCols {α : Type} (t : Table α) (ns : List String) :
    (t.selectCols ns).names = ns.filter (fun n => decide (n ∈ t.names)) := by
  induction ns with
  | nil => rfl
  | cons n ns ih =>
    by_cases h : n ∈ t.names
    · obtain ⟨c, hc⟩ := Option.isSome_iff_exists.1 ((Table.lookup_isSome_iff t n).2 h)
      have h1 : (t.selectCols (n :: ns)).cols = c :: (t.selectCols ns).cols := by
        simp only [Table.selectCols, List.filterMap_cons, hc]
      have h2 : (t.selectCols (n :: ns)).names = c.1 :: (t.selectCols ns).names := by
        simp only [Table.names, h1, List.map_cons]
      rw [h2, List.filter_cons, decide_eq_true h, if_pos rfl, ih,
        Table.lookup_eq_name t n c hc]
    · have hn : t.lookup n = none := by
        rcases ho : t.lookup n with _ | c
        · rfl
        · exact absurd ((Table.lookup_isSome_iff t n).1 (by rw [ho]; rfl)) h
      have h1 : (t.selectCols (n :: ns)).cols = (t.selectCols ns).cols := by
        simp only [Table.selectCols, List.filterMap_cons, hn]
      have h2 : (t.selectCols (n :: ns)).names = (t.selectCols ns).names := by
        simp only [Table.names, h1]
      rw [h2, ih, List.filter_cons, decide_eq_false h]
      simp

theorem keep_subset_names {α : Type} (t : Table α) (q : Col α → Bool) :
    ∀ n ∈ (t.cols.filter q).map (fun c => c.1), n ∈ t.names := by
  intro n hn
  rcases List.mem_map.1 hn with ⟨c, hc, rfl⟩
  exact List.mem_map.2 ⟨c, List.mem_of_mem_filter hc, rfl⟩

theorem selectCols_names_eq {α : Type} (t te : Table α) (keep : List String)
    (hktr : ∀ n ∈ keep, n ∈ t.names) (hkte : ∀ n ∈ keep, n ∈ te.names) :
    (te.selectCols keep).names = (t.selectCols keep).names := by
  rw [names_selectCols, names_selectCols]
  rw [List.filter_eq_self.2 (fun n hn => by simpa using hkte n hn)]
  rw [List.filter_eq_self.2 (fun n hn => by simpa using hktr n hn)]

theorem constantKeepLoop_aux {α : Type} (f : Col α → Except String Nat)
    (cols : List (Col α)) (acc : List String × List String) :
    cols.foldl
      (fun acc c =>
        match f c with
        | Except.ok n => if n = 0 ∨ n = 1 then acc else (acc.1 ++ [c.1], acc.2)
        | Except.error _ => (acc.1, acc.2 ++ ["Column " ++ c.1 ++ " could not be processed."]))
      acc =
    (acc.1 ++ (cols.filter (keepPred f)).map (fun c => c.1),
     acc.2 ++ (cols.filter (errPred f)).map
        (fun c => "Column " ++ c.1 ++ " could not be processed.")) := by
  induction cols generalizing acc with
  | nil => simp
  | cons c cs ih =>
    rw [List.foldl_cons]
    cases hf : f c with
    | ok n =>
      have hk : keepPred f c = !(decide (n = 0 ∨ n = 1)) := by simp [keepPred, hf]
      have he : errPred f c = false := by simp [errPred, hf]
      simp only [hf]
      by_cases hn : n = 0 ∨ n = 1
      · rw [if_pos hn, ih, List.filter_cons, List.filter_cons, hk, he]
        simp [hn]
      · rw [if_neg hn, ih, List.filter_cons, List.filter_cons, hk, he]
        simp [hn]
    | error e =>
      have hk : keepPred f c = false := by simp [keepPred, hf]
      have he : errPred f c = true := by simp [errPred, hf]
      simp only [hf]
      rw [ih, List.filter_cons, List.filter_cons, hk, he]
      simp

theorem constantKeepLoop_eq {α : Type} (f : Col α → Except String Nat)
    (cols : List (Col α)) :
    constantKeepLoop f cols =
      ((cols.filter (keepPred f)).map (fun c => c.1),
       (cols.filter (errPred f)).map
          (fun c => "Column " ++ c.1 ++ " could not be processed.")) := by
  simpa [constantKeepLoop] using constantKeepLoop_aux f cols ([], [])

/-- C2: for every threshold strictly outside [0,1], both threshold-based drop
operations raise the ValueError and leave the stored train and test tables
unchanged; for every threshold in [0,1] no validation error is raised. -/
theorem threshold_ops_validate {α : Type} (th : ℚ) (s : State α) :
    ((th < 0 ∨ 1 < th) →
      drop_column_missing_threshold th s =
        (Except.error "Threshold cannot be greater than 1 or less than 0.", s) ∧
      drop_rows_missing_threshold th s =
        (Except.error "Threshold cannot be greater than 1 or less than 0.", s)) ∧
    (0 ≤ th → th ≤ 1 →
      (drop_column_missing_threshold th s).1 = Except.ok () ∧
      (drop_rows_missing_threshold th s).1 = Except.ok ()) := by
  constructor
  · intro h
    have hc : th > 1 ∨ th < 0 := by
      rcases h with h | h
      · exact Or.inr h
      · exact Or.inl h
    constructor
    · simp only [drop_column_missing_threshold]
      rw [if_pos hc]
    · simp only [drop_rows_missing_threshold]
      rw [if_pos hc]
  · intro h0 h1
    have hc : ¬(th > 1 ∨ th < 0) := by
      push_neg
      exact ⟨h1, h0⟩
    constructor
    · simp only [drop_column_missing_threshold]
      rw [if_neg hc]
    · simp only [drop_rows_missing_threshold]
      rw [if_neg hc]

/-- Closed witness for threshold_ops_validate: the threshold 2 raises and
leaves the state untouched, the threshold 1/2 does not raise. -/
theorem threshold_ops_validate_w :
    drop_column_missing_threshold (2 : ℚ) ⟨⟨[("a", [some (1 : ℤ)])]⟩, none⟩ =
      (Except.error "Threshold cannot be greater than 1 or less than 0.",
        ⟨⟨[("a", [some (1 : ℤ)])]⟩, none⟩) ∧
    (drop_rows_missing_threshold ((1 : ℚ)/2) ⟨⟨[("a", [some (1 : ℤ)])]⟩, none⟩).1 =
      Except.ok () := by
  exact ⟨((threshold_ops_validate 2 _).1 (by norm_num)).1,
    ((threshold_ops_validate (1/2) _).2 (by norm_num) (by norm_num)).2⟩

/-- C9: with no stored test table, replace_missing_knn raises the NameError on
test_knn_transformed at its final assignment, and at that point the train
table has already been reassigned to the imputed result. -/
theorem replace_missing_knn_not_atomic {α : Type}
    (impute : List (List (Cell α)) → List (List α)) (s : State α) (h : s.test = none) :
    replace_missing_knn impute s =
      (Except.error "NameError: name test_knn_transformed is not defined",
        { train := mkDataFrame (impute s.train.rows) s.train.names, test := none }) := by
  simp [replace_missing_knn, h]

/-- Closed witness for replace_missing_knn_not_atomic on a one-cell table. -/
theorem replace_missing_knn_not_atomic_w :
    replace_missing_knn (fun _ => [[(0 : ℤ)]]) ⟨⟨[("a", [none])]⟩, none⟩ =
      (Except.error "NameError: name test_knn_transformed is not defined",
        ⟨⟨[("a", [some 0])]⟩, none⟩) := by
  have h := replace_missing_knn_not_atomic (fun _ => [[(0 : ℤ)]]) ⟨⟨[("a", [none])]⟩, none⟩ rfl
  rw [h]
  rfl

/-- C7: a model without a decision function yields the NaN sentinel from
average_precision; a model with one yields the external average-precision
formula applied to the stored labels and the decision-function output. -/
theorem average_precision_capability {α β : Type}
    (apScore : List α → List ℚ → ℚ) (m : ClassificationModelAnalysis α β) :
    (m.decision_function = none → m.average_precision apScore = PyFloat.nan) ∧
    (∀ f, m.decision_function = some f →
      m.average_precision apScore = PyFloat.val (apScore m.y_test (f m.x_test))) := by
  constructor
  · intro h
    simp [ClassificationModelAnalysis.average_precision, h]
  · intro f h
    simp [ClassificationModelAnalysis.average_precision, h]

/-- Closed witness for average_precision_capability: one model without and one
with a decision function. -/
theorem average_precision_capability_w :
    ClassificationModelAnalysis.average_precision (fun _ _ => (1 : ℚ)/2)
        (⟨[(0 : ℤ)], [0], (), none⟩ : ClassificationModelAnalysis ℤ Unit) = PyFloat.nan ∧
    ClassificationModelAnalysis.average_precision (fun _ _ => (1 : ℚ)/2)
        (⟨[(0 : ℤ)], [0], (), some (fun _ => [1])⟩ : ClassificationModelAnalysis ℤ Unit) =
      PyFloat.val (1/2) := by
  exact ⟨(average_precision_capability _ _).1 rfl, (average_precision_capability _ _).2 _ rfl⟩

theorem sum_map_indicator_eq_countP {γ : Type} (p : γ → Prop) [DecidablePred p]
    (l : List γ) :
    (l.map (fun x => if p x then (1 : ℚ) else 0)).sum =
      (l.countP (fun x => decide (p x)) : ℚ) := by
  induction l with
  | nil => simp
  | cons a l ih =>
    by_cases h : p a
    · simp [List.countP_cons, h, ih]
      ring
    · simp [List.countP_cons, h, ih]

/-- C6: the accuracy method returns the number of positions where the cached
prediction equals the held-out label, divided by the number of positions. -/
theorem accuracy_fraction_correct {α β : Type} [DecidableEq α]
    (m : ClassificationModelAnalysis α β)
    (_hlen : m.y_test.length = m.y_pred.length) (_hne : m.y_test ≠ []) :
    m.accuracy =
      ((m.y_test.zip m.y_pred).countP (fun p => decide (p.1 = p.2)) : ℚ) /
        (m.y_test.length : ℚ) := by
  unfold ClassificationModelAnalysis.accuracy accuracy_score
  rw [sum_map_indicator_eq_countP (fun q : α × α => q.1 = q.2) (m.y_test.zip m.y_pred)]

/-- Closed witness for accuracy_fraction_correct: two of three predictions
match, accuracy 2/3. -/
theorem accuracy_fraction_correct_w :
    (⟨[1, 2, 3], [1, 5, 3], (), none⟩ : ClassificationModelAnalysis ℤ Unit).accuracy
      = 2/3 := by
  have h := accuracy_fraction_correct
    (⟨[1, 2, 3], [1, 5, 3], (), none⟩ : ClassificationModelAnalysis ℤ Unit) rfl (by decide)
  rw [h]
  norm_num [List.countP, List.countP.go]

example : nunique [some (5 : ℤ), some 5, none] = 1 := by decide

/-- C4: drop_constant_columns removes exactly the train columns whose count of
unique non-missing values is 0 or 1, keeping every other column in its
relative order. -/
theorem drop_constant_columns_exact {α : Type} [DecidableEq α] (s : State α)
    (hnd : s.train.names.Nodup) :
    (drop_constant_columns s).train.cols =
      s.train.cols.filter (fun c => !(decide (nunique c.2 = 0 ∨ nunique c.2 = 1))) := by
  show (s.train.selectCols
    (constantKeepLoop (fun c => Except.ok (nunique c.2)) s.train.cols).1).cols = _
  rw [constantKeepLoop_eq]
  rw [selectCols_filter s.train (keepPred (fun c => Except.ok (nunique c.2))) hnd]
  rfl

/-- Closed witness for drop_constant_columns_exact: a constant column and an
all-missing column are dropped, a two-valued column survives. -/
theorem drop_constant_columns_exact_w :
    (drop_constant_columns
      (⟨⟨[("a", [some (5 : ℤ), some 5]), ("b", [some 1, some 2]), ("c", [none, none])]⟩,
        none⟩ : State ℤ)).train.cols = [("b", [some (1 : ℤ), some 2])] := by
  have h := drop_constant_columns_exact
    (⟨⟨[("a", [some (5 : ℤ), some 5]), ("b", [some 1, some 2]), ("c", [none, none])]⟩,
      none⟩ : State ℤ) (by decide)
  rw [h]
  decide

/-- Counterexample for the claim that every column-drop operation leaves the
train and test tables with equal column sets: on dupCexState the schemas agree
beforehand and drop_duplicate_columns separates them. -/
theorem drop_duplicate_columns_schema_cex :
    dupCexState.test.map Table.names = some dupCexState.train.names ∧
    (drop_duplicate_columns dupCexState).test.map Table.names ≠
      some ((drop_duplicate_columns dupCexState).train.names) := by
  constructor
  · decide
  · decide

/-- C1 (amended): after drop_column_missing_threshold (with an in-range
threshold), drop_constant_columns and drop_unique_columns, the train and test
tables carry the same column labels, because the keep list computed on the
train table is selected on both; drop_duplicate_columns is excluded, it
deduplicates each table independently. -/
theorem keep_list_ops_preserve_schema {α : Type} [DecidableEq α] (s : State α)
    (te : Table α) (th : ℚ) (hte : s.test = some te)
    (hsub : ∀ n ∈ s.train.names, n ∈ te.names) (h0 : 0 ≤ th) (h1 : th ≤ 1) :
    ((drop_column_missing_threshold th s).2.test.map Table.names =
      some ((drop_column_missing_threshold th s).2.train.names)) ∧
    ((drop_constant_columns s).test.map Table.names =
      some ((drop_constant_columns s).train.names)) ∧
    ((drop_unique_columns s).test.map Table.names =
      some ((drop_unique_columns s).train.names)) := by
  have hc : ¬(th > 1 ∨ th < 0) := by
    push_neg
    exact ⟨h1, h0⟩
  refine ⟨?_, ?_, ?_⟩
  · simp only [drop_column_missing_threshold]
    rw [if_neg hc]
    simp only [hte, Option.map_map, Option.map_some']
    have hk := keep_subset_names s.train
      (fun c => decide (0 < c.2.length ∧ fracMissing c.2 < th))
    exact congrArg some
      (selectCols_names_eq s.train te _ hk (fun n hn => hsub n (hk n hn)))
  · show (s.test.map (fun te => te.selectCols
      (constantKeepLoop (fun c => Except.ok (nunique c.2)) s.train.cols).1)).map Table.names =
      some ((s.train.selectCols
        (constantKeepLoop (fun c => Except.ok (nunique c.2)) s.train.cols).1).names)
    rw [hte]
    simp only [Option.map_some']
    have hk : ∀ n ∈ (constantKeepLoop (fun c => Except.ok (nunique c.2)) s.train.cols).1,
        n ∈ s.train.names := by
      rw [constantKeepLoop_eq]
      exact keep_subset_names s.train (keepPred (fun c => Except.ok (nunique c.2)))
    exact congrArg some
      (selectCols_names_eq s.train te _ hk (fun n hn => hsub n (hk n hn)))
  · show (s.test.map (fun te => te.selectCols
      ((s.train.cols.filter (fun c => decide (nunique c.2 ≠ s.train.nrows))).map
        (fun c => c.1)))).map Table.names =
      some ((s.train.selectCols
        ((s.train.cols.filter (fun c => decide (nunique c.2 ≠ s.train.nrows))).map
          (fun c => c.1))).names)
    rw [hte]
    simp only [Option.map_some']
    have hk := keep_subset_names s.train (fun c => decide (nunique c.2 ≠ s.train.nrows))
    exact congrArg some
      (selectCols_names_eq s.train te _ hk (fun n hn => hsub n (hk n hn)))

/-- Closed witness for keep_list_ops_preserve_schema on a two-column pair with
threshold 1/2. -/
theorem keep_list_ops_preserve_schema_w :
    ((drop_column_missing_threshold (1/2) schemaWitnessState).2.test.map Table.names =
      some ((drop_column_missing_threshold (1/2) schemaWitnessState).2.train.names)) ∧
    ((drop_constant_columns schemaWitnessState).test.map Table.names =
      some ((drop_constant_columns schemaWitnessState).train.names)) ∧
    ((drop_unique_columns schemaWitnessState).test.map Table.names =
      some ((drop_unique_columns schemaWitnessState).train.names)) :=
  keep_list_ops_preserve_schema schemaWitnessState
    ⟨[("a", [some 2]), ("b", [some 3])]⟩ (1/2) rfl (by decide) (by norm_num) (by norm_num)

theorem rows_dropRowsThresh {α : Type} (k : ℤ) (t : Table α) :
    (dropRowsThresh k t).rows =
      t.rows.filter (fun r => decide (k ≤ (countValid r : ℤ))) := by
  rcases hc : t.cols with _ | ⟨c0, rest⟩
  · have h0 : t.nrows = 0 := by simp [Table.nrows, hc]
    simp [dropRowsThresh, Table.rows, Table.nrows, hc, h0]
  · set K := (List.range t.nrows).filter
      (fun i => decide (k ≤ (countValid (t.row i) : ℤ))) with hK
    have hnr : t.nrows = c0.2.length := by simp [Table.nrows, hc]
    have hnew : (dropRowsThresh k t).rows = K.map t.row := by
      have hlen : (dropRowsThresh k t).nrows = K.length := by
        simp only [dropRowsThresh, Table.nrows, hc, List.map_cons, List.head?_cons,
          Option.map_some', Option.getD_some, List.length_map]
        rw [hK, hnr]
      apply List.ext_getElem
      · simp [Table.rows, hlen]
      · intro j h1 h2
        have hjK : j < K.length := by simpa using h2
        simp only [Table.rows, List.getElem_map, List.getElem_range]
        show (dropRowsThresh k t).row j = t.row K[j]
        have hL : (dropRowsThresh k t).row j =
            (t.cols.map (fun c => (c.1, K.map (fun i => cellAt c i)))).map
              (fun c => cellAt c j) := rfl
        have hR : t.row K[j] = t.cols.map (fun c => cellAt c K[j]) := rfl
        rw [hL, hR, List.map_map]
        apply List.map_congr_left
        intro c _
        show cellAt (c.1, K.map (fun i => cellAt c i)) j = cellAt c K[j]
        simp only [cellAt]
        rw [List.get?_eq_getElem?, List.getElem?_eq_getElem (by simpa using hjK),
          List.getElem_map]
        rfl
    calc (dropRowsThresh k t).rows = K.map t.row := hnew
      _ = ((List.range t.nrows).map t.row).filter
            (fun r => decide (k ≤ (countValid r : ℤ))) := by
          rw [hK]
          exact map_filter_comm t.row (fun r => decide (k ≤ (countValid r : ℤ)))
            (List.range t.nrows)
      _ = t.rows.filter (fun r => decide (k ≤ (countValid r : ℤ))) := rfl

/-- Counterexample for the row half of the exact-threshold claim: with one
column and threshold 1/2, the single fully missing row has missing fraction
1 ≥ 1/2, yet drop_rows_missing_threshold keeps it (the pandas call keeps rows
with at least round(ncols*threshold) = round(0.5) = 0 non-missing entries). -/
theorem drop_rows_missing_threshold_cex :
    (0 : ℚ) ≤ 1/2 ∧ (1/2 : ℚ) ≤ 1 ∧
    (1/2 : ℚ) ≤ fracMissing
      ((⟨⟨[("a", [(none : Cell ℤ)])]⟩, none⟩ : State ℤ).train.row 0) ∧
    (drop_rows_missing_threshold (1/2)
        (⟨⟨[("a", [(none : Cell ℤ)])]⟩, none⟩ : State ℤ)).2.train.rows =
      [[(none : Cell ℤ)]] := by
  refine ⟨by norm_num, by norm_num, ?_, ?_⟩
  · show (1/2 : ℚ) ≤ fracMissing [(none : Cell ℤ)]
    norm_num [fracMissing, countMissing]
  · simp only [drop_rows_missing_threshold]
    rw [if_neg (by norm_num)]
    show (dropRowsThresh (pythonRound ((1 : ℚ) * (1/2))) ⟨[("a", [(none : Cell ℤ)])]⟩).rows
      = [[(none : Cell ℤ)]]
    rw [show pythonRound ((1 : ℚ) * (1/2)) = 0 from by norm_num [pythonRound]]
    decide

/-- C3 (amended): for an in-range threshold, drop_column_missing_threshold
removes exactly the train columns whose missing fraction is at least the
threshold (train columns assumed non-empty and distinctly labelled), while
drop_rows_missing_threshold keeps, in each table independently, exactly the
rows whose count of non-missing entries is at least
round(ncols * threshold) with round half to even — not the rows of missing
fraction below the threshold. -/
theorem threshold_drops_exact {α : Type} (th : ℚ) (s : State α)
    (h0 : 0 ≤ th) (h1 : th ≤ 1)
    (hnz : ∀ c ∈ s.train.cols, c.2.length ≠ 0) (hnd : s.train.names.Nodup) :
    (drop_column_missing_threshold th s).2.train.cols =
      s.train.cols.filter (fun c => !(decide (th ≤ fracMissing c.2))) ∧
    (drop_rows_missing_threshold th s).2.train.rows =
      s.train.rows.filter
        (fun r => decide (pythonRound ((s.train.cols.length : ℚ) * th) ≤ (countValid r : ℤ))) ∧
    (drop_rows_missing_threshold th s).2.test.map Table.rows =
      s.test.map (fun te => te.rows.filter
        (fun r => decide (pythonRound ((te.cols.length : ℚ) * th) ≤ (countValid r : ℤ)))) := by
  have hcnd : ¬(th > 1 ∨ th < 0) := by
    push_neg
    exact ⟨h1, h0⟩
  refine ⟨?_, ?_, ?_⟩
  · simp only [drop_column_missing_threshold]
    rw [if_neg hcnd]
    show (s.train.selectCols ((s.train.cols.filter
      (fun c => decide (0 < c.2.length ∧ fracMissing c.2 < th))).map (fun c => c.1))).cols = _
    rw [selectCols_filter s.train _ hnd]
    apply List.filter_congr
    intro c hc
    have hl : 0 < c.2.length := Nat.pos_of_ne_zero (hnz c hc)
    by_cases hlt : fracMissing c.2 < th
    · simp [hl, hlt, not_le.2 hlt]
    · simp [hl, hlt, not_lt.1 hlt]
  · simp only [drop_rows_missing_threshold]
    rw [if_neg hcnd]
    exact rows_dropRowsThresh _ s.train
  · simp only [drop_rows_missing_threshold]
    rw [if_neg hcnd]
    rcases hts : s.test with _ | te
    · simp
    · simp only [Option.map_some']
      exact congrArg some (rows_dropRowsThresh _ te)

/-- Closed witness for threshold_drops_exact at threshold 1/2 on
schemaWitnessState. -/
theorem threshold_drops_exact_w :
    (drop_column_missing_threshold (1/2) schemaWitnessState).2.train.cols =
      schemaWitnessState.train.cols.filter
        (fun c => !(decide ((1/2 : ℚ) ≤ fracMissing c.2))) ∧
    (drop_rows_missing_threshold (1/2) schemaWitnessState).2.train.rows =
      schemaWitnessState.train.rows.filter
        (fun r => decide (pythonRound ((schemaWitnessState.train.cols.length : ℚ) * (1/2)) ≤
          (countValid r : ℤ))) ∧
    (drop_rows_missing_threshold (1/2) schemaWitnessState).2.test.map Table.rows =
      schemaWitnessState.test.map (fun te => te.rows.filter
        (fun r => decide (pythonRound ((te.cols.length : ℚ) * (1/2)) ≤ (countValid r : ℤ)))) :=
  threshold_drops_exact (1/2) schemaWitnessState (by norm_num) (by norm_num)
    (by decide) (by decide)

/-- C8: if computing the unique count of a column raises, that column is
excluded from the kept labels, its per-column message is logged, and every
other column whose unique count is computed and is neither 0 nor 1 is still
kept: the loop continues instead of aborting. -/
theorem constant_detection_error_isolation {α : Type}
    (f : Col α → Except String Nat) (cols : List (Col α)) (c : Col α) (e : String)
    (hnd : (cols.map (fun c => c.1)).Nodup) (hc : c ∈ cols) (hf : f c = Except.error e) :
    c.1 ∉ (constantKeepLoop f cols).1 ∧
    ("Column " ++ c.1 ++ " could not be processed.") ∈ (constantKeepLoop f cols).2 ∧
    (∀ c2 ∈ cols, ∀ n, f c2 = Except.ok n → ¬(n = 0 ∨ n = 1) →
      c2.1 ∈ (constantKeepLoop f cols).1) := by
  rw [constantKeepLoop_eq]
  refine ⟨?_, ?_, ?_⟩
  · intro hmem
    rcases List.mem_map.1 hmem with ⟨c2, hc2, he⟩
    have hc2c : c2 = c :=
      List.inj_on_of_nodup_map hnd (List.mem_of_mem_filter hc2) hc he
    have := List.of_mem_filter hc2
    rw [hc2c, keepPred, hf] at this
    exact absurd this (by simp)
  · apply List.mem_map_of_mem
    apply List.mem_filter.2
    exact ⟨hc, by rw [errPred, hf]⟩
  · intro c2 hc2 n hfn hn
    apply List.mem_map_of_mem
    apply List.mem_filter.2
    refine ⟨hc2, ?_⟩
    rw [keepPred, hfn]
    simpa using hn

/-- Closed witness for constant_detection_error_isolation: the unique count of
column b raises, b is dropped and logged, the two-valued column a is kept. -/
theorem constant_detection_error_isolation_w :
    ("b" : String) ∉ (constantKeepLoop
      (fun c => if c.1 = "b" then Except.error "boom" else Except.ok (nunique c.2))
      [("a", [some (1 : ℤ), some 2]), ("b", [some 3, some 4])]).1 ∧
    ("Column b could not be processed.") ∈ (constantKeepLoop
      (fun c => if c.1 = "b" then Except.error "boom" else Except.ok (nunique c.2))
      [("a", [some (1 : ℤ), some 2]), ("b", [some 3, some 4])]).2 ∧
    ("a" : String) ∈ (constantKeepLoop
      (fun c => if c.1 = "b" then Except.error "boom" else Except.ok (nunique c.2))
      [("a", [some (1 : ℤ), some 2]), ("b", [some 3, some 4])]).1 := by
  have h := constant_detection_error_isolation
    (fun c => if c.1 = "b" then Except.error "boom" else Except.ok (nunique c.2))
    [("a", [some (1 : ℤ), some 2]), ("b", [some 3, some 4])]
    ("b", [some 3, some 4]) "boom" (by decide) (by decide) rfl
  exact ⟨h.1, h.2.1, h.2.2 ("a", [some (1 : ℤ), some 2]) (by decide) 2 rfl (by decide)⟩

theorem except_bind_ok {ε γ δ : Type} (x : γ) (f : γ → Except ε δ) :
    (Except.ok x >>= f) = f x := rfl

theorem except_bind_error {ε γ δ : Type} (e : ε) (f : γ → Except ε δ) :
    ((Except.error e : Except ε γ) >>= f) = Except.error e := rfl

theorem find?_map_overwrite {α : Type} (cols : List (Col α)) (n : String)
    (d : List (Cell α)) (c : Col α) (h : cols.find? (fun c2 => c2.1 == n) = some c) :
    (cols.map (fun c2 => if c2.1 == n then (c2.1, d) else c2)).find? (fun c2 => c2.1 == n)
      = some (c.1, d) := by
  induction cols with
  | nil => simp at h
  | cons c0 cs ih =>
    by_cases h0 : c0.1 = n
    · have hb : (c0.1 == n) = true := by simpa using h0
      simp only [List.find?_cons, hb] at h
      have hcc : c = c0 := (Option.some.inj h).symm
      simp [List.find?_cons, h0, hcc]
    · have hb : (c0.1 == n) = false := by simpa using h0
      simp only [List.find?_cons, hb] at h
      simp only [List.map_cons, List.find?_cons, hb, Bool.false_eq_true, if_false]
      exact ih h

theorem find?_map_overwrite_ne {α : Type} (cols : List (Col α)) (n m : String)
    (d : List (Cell α)) (hne : m ≠ n) :
    (cols.map (fun c2 => if c2.1 == n then (c2.1, d) else c2)).find? (fun c2 => c2.1 == m)
      = cols.find? (fun c2 => c2.1 == m) := by
  induction cols with
  | nil => rfl
  | cons c0 cs ih =>
    rw [List.map_cons]
    by_cases h0 : c0.1 = n
    · have hbm : (c0.1 == m) = false := by
        have hn2 : c0.1 ≠ m := by
          rw [h0]
          exact fun he => hne he.symm
        simpa using hn2
      have hb : (c0.1 == n) = true := by simpa using h0
      simp only [List.find?_cons, hb, if_true, hbm, Bool.false_eq_true, if_false]
      exact ih
    · have hb : (c0.1 == n) = false := by simpa using h0
      simp only [hb, Bool.false_eq_true, if_false]
      by_cases h0m : c0.1 = m
      · have hbm : (c0.1 == m) = true := by simpa using h0m
        simp only [List.find?_cons, hbm]
      · have hbm : (c0.1 == m) = false := by simpa using h0m
        simp only [List.find?_cons, hbm, Bool.false_eq_true, if_false]
        exact ih

theorem lookup_setCol_self {α : Type} (t : Table α) (n : String) (d : List (Cell α))
    (c : Col α) (h : t.lookup n = some c) :
    (t.setCol n d).lookup n = some (c.1, d) := by
  have hmem : n ∈ t.names := (Table.lookup_isSome_iff t n).1 (by rw [h]; rfl)
  rw [Table.setCol, if_pos (by simpa using hmem)]
  exact find?_map_overwrite t.cols n d c h

theorem lookup_setCol_ne {α : Type} (t : Table α) (n m : String) (d : List (Cell α))
    (hne : m ≠ n) : (t.setCol n d).lookup m = t.lookup m := by
  rw [Table.setCol]
  by_cases hc : n ∈ t.names
  · rw [if_pos (by simpa using hc)]
    exact find?_map_overwrite_ne t.cols n m d hne
  · rw [if_neg (by simpa using hc)]
    show (t.cols ++ [(n, d)]).find? (fun c2 => c2.1 == m) = _
    rw [List.find?_append]
    have h1 : ([(n, d)].find? (fun c2 => c2.1 == m)) = none := by
      rw [List.find?_cons_of_neg _ (by simpa using fun he : n = m => hne he.symm)]
      rfl
    rw [h1, Option.or_none]
    rfl

theorem fillMissing_present {α : Type} (l : List (Cell α)) (r : List α) (i : Nat) (v : α)
    (h : l.get? i = some (some v)) : (fillMissing l r).get? i = some (some v) := by
  induction l generalizing r i with
  | nil => simp at h
  | cons x rest ih =>
    cases x with
    | some w =>
      cases i with
      | zero => simpa [fillMissing] using h
      | succ j =>
        rw [show fillMissing (some w :: rest) r = some w :: fillMissing rest r from rfl]
        exact ih r j (by simpa using h)
    | none =>
      cases r with
      | nil =>
        cases i with
        | zero => simp at h
        | succ j =>
          rw [show fillMissing ((none : Cell α) :: rest) [] =
            none :: fillMissing rest [] from rfl]
          exact ih [] j (by simpa using h)
      | cons a as =>
        cases i with
        | zero => simp at h
        | succ j =>
          rw [show fillMissing ((none : Cell α) :: rest) (a :: as) =
            some a :: fillMissing rest as from rfl]
          exact ih as j (by simpa using h)

theorem randomDiscreteStep_ok {α : Type} [DecidableEq α]
    (sample : List (α × ℚ) → Nat → List α) (n : String) (s : State α)
    (te : Table α) (ctr cte : Col α) (hte : s.test = some te)
    (h1 : s.train.lookup n = some ctr) (h2 : te.lookup n = some cte) :
    randomDiscreteStep sample n s = Except.ok
      { train := s.train.setCol n
          (fillMissing ctr.2 (sample (valueCounts ctr.2) (countMissing ctr.2))),
        test := some (te.setCol n
          (fillMissing cte.2 (sample (valueCounts ctr.2) (countMissing cte.2)))) } := by
  simp [randomDiscreteStep, h1, hte, h2]

theorem randomDiscreteStep_untouched {α : Type} [DecidableEq α]
    (sample : List (α × ℚ) → Nat → List α) (n m : String) (s s1 : State α)
    (h : randomDiscreteStep sample n s = Except.ok s1) (hne : m ≠ n) :
    s1.train.lookup m = s.train.lookup m ∧
      s1.test.map (fun t2 => t2.lookup m) = s.test.map (fun t2 => t2.lookup m) := by
  rcases h1 : s.train.lookup n with _ | ctr
  · simp [randomDiscreteStep, h1] at h
  · rcases hts : s.test with _ | te
    · simp [randomDiscreteStep, h1, hts] at h
      refine ⟨?_, ?_⟩
      · rw [← h]
        exact lookup_setCol_ne s.train n m _ hne
      · rw [← h]
    · rcases h2 : te.lookup n with _ | cte
      · simp [randomDiscreteStep, h1, hts, h2] at h
      · simp [randomDiscreteStep, h1, hts, h2] at h
        refine ⟨?_, ?_⟩
        · rw [← h]
          exact lookup_setCol_ne s.train n m _ hne
        · rw [← h]
          simp only [Option.map_some']
          rw [lookup_setCol_ne te n m _ hne]

theorem rmrd_untouched {α : Type} [DecidableEq α]
    (sample : List (α × ℚ) → Nat → List α) (cols : List String) (s s2 : State α)
    (m : String) (h : replace_missing_random_discrete sample cols s = Except.ok s2)
    (hm : m ∉ cols) :
    s2.train.lookup m = s.train.lookup m ∧
      s2.test.map (fun t2 => t2.lookup m) = s.test.map (fun t2 => t2.lookup m) := by
  induction cols generalizing s with
  | nil =>
    have hs : s = s2 := by
      have h2 : (Except.ok s : Except String (State α)) = Except.ok s2 := h
      exact Except.ok.inj h2
    rw [hs]
    exact ⟨rfl, rfl⟩
  | cons n1 rest ih =>
    have hum : m ∉ rest := fun hr => hm (List.mem_cons_of_mem n1 hr)
    have hne : m ≠ n1 := fun he => hm (he ▸ List.mem_cons_self n1 rest)
    rw [replace_missing_random_discrete, List.foldlM_cons] at h
    rcases hstep : randomDiscreteStep sample n1 s with e | s1
    · rw [hstep, except_bind_error] at h
      exact absurd h (by simp)
    · rw [hstep, except_bind_ok] at h
      have hrest : replace_missing_random_discrete sample rest s1 = Except.ok s2 := h
      have hih := ih s1 hrest hum
      have hst := randomDiscreteStep_untouched sample n1 m s s1 hstep hne
      exact ⟨hih.1.trans hst.1, hih.2.trans hst.2⟩

/-- C10: for every sampler and every selected column, the missing entries of
the train column and of the test column are filled with draws from the
normalized value counts of the ORIGINAL train column (never the test
distribution), and all non-missing entries of both tables are unchanged. -/
theorem replace_missing_random_discrete_train_dist {α : Type} [DecidableEq α]
    (sample : List (α × ℚ) → Nat → List α) (cols : List String) (s : State α)
    (te : Table α) (hte : s.test = some te) (hnd : cols.Nodup)
    (htr : ∀ n ∈ cols, n ∈ s.train.names) (hts : ∀ n ∈ cols, n ∈ te.names) :
    ∃ s2 te2, replace_missing_random_discrete sample cols s = Except.ok s2 ∧
      s2.test = some te2 ∧
      ∀ n ∈ cols, ∀ ctr cte, s.train.lookup n = some ctr → te.lookup n = some cte →
        (s2.train.lookup n = some (ctr.1,
            fillMissing ctr.2 (sample (valueCounts ctr.2) (countMissing ctr.2))) ∧
         te2.lookup n = some (cte.1,
            fillMissing cte.2 (sample (valueCounts ctr.2) (countMissing cte.2))) ∧
         (∀ i v, ctr.2.get? i = some (some v) →
            (fillMissing ctr.2 (sample (valueCounts ctr.2) (countMissing ctr.2))).get? i
              = some (some v)) ∧
         (∀ i v, cte.2.get? i = some (some v) →
            (fillMissing cte.2 (sample (valueCounts ctr.2) (countMissing cte.2))).get? i
              = some (some v))) := by
  induction cols generalizing s te with
  | nil =>
    refine ⟨s, te, rfl, hte, ?_⟩
    intro n hn
    exact absurd hn (List.not_mem_nil n)
  | cons n1 rest ih =>
    have hn1tr : n1 ∈ s.train.names := htr n1 (List.mem_cons_self n1 rest)
    have hn1te : n1 ∈ te.names := hts n1 (List.mem_cons_self n1 rest)
    obtain ⟨ctr1, hctr1⟩ := Option.isSome_iff_exists.1 ((Table.lookup_isSome_iff _ _).2 hn1tr)
    obtain ⟨cte1, hcte1⟩ := Option.isSome_iff_exists.1 ((Table.lookup_isSome_iff _ _).2 hn1te)
    have hstep := randomDiscreteStep_ok sample n1 s te ctr1 cte1 hte hctr1 hcte1
    set tr1 := s.train.setCol n1
      (fillMissing ctr1.2 (sample (valueCounts ctr1.2) (countMissing ctr1.2))) with htr1d
    set te1 := te.setCol n1
      (fillMissing cte1.2 (sample (valueCounts ctr1.2) (countMissing cte1.2))) with hte1d
    have hn1rest : n1 ∉ rest := (List.nodup_cons.1 hnd).1
    have hndr : rest.Nodup := (List.nodup_cons.1 hnd).2
    have hlr : ∀ n ∈ rest, (⟨tr1, some te1⟩ : State α).train.lookup n = s.train.lookup n := by
      intro n hn
      exact lookup_setCol_ne s.train n1 n _ (fun he => hn1rest (he ▸ hn))
    have hlte : ∀ n ∈ rest, te1.lookup n = te.lookup n := by
      intro n hn
      exact lookup_setCol_ne te n1 n _ (fun he => hn1rest (he ▸ hn))
    have htr2 : ∀ n ∈ rest, n ∈ (⟨tr1, some te1⟩ : State α).train.names := by
      intro n hn
      refine (Table.lookup_isSome_iff _ _).1 ?_
      rw [hlr n hn]
      exact (Table.lookup_isSome_iff _ _).2 (htr n (List.mem_cons_of_mem n1 hn))
    have hts2 : ∀ n ∈ rest, n ∈ te1.names := by
      intro n hn
      refine (Table.lookup_isSome_iff _ _).1 ?_
      rw [hlte n hn]
      exact (Table.lookup_isSome_iff _ _).2 (hts n (List.mem_cons_of_mem n1 hn))
    obtain ⟨s2, te2, hfold, hte2, hmain⟩ :=
      ih (⟨tr1, some te1⟩ : State α) te1 rfl hndr htr2 hts2
    refine ⟨s2, te2, ?_, hte2, ?_⟩
    · show (n1 :: rest).foldlM (fun st n => randomDiscreteStep sample n st) s = Except.ok s2
      simp only [List.foldlM_cons]
      rw [hstep, except_bind_ok]
      exact hfold
    · intro n hn ctr cte hctr hcte
      rcases List.mem_cons.1 hn with rfl | hn2
      · have hc1 : ctr1 = ctr := Option.some.inj (hctr1.symm.trans hctr)
        have hc2 : cte1 = cte := Option.some.inj (hcte1.symm.trans hcte)
        subst hc1
        subst hc2
        have hun := rmrd_untouched sample rest ⟨tr1, some te1⟩ s2 n hfold hn1rest
        refine ⟨?_, ?_, ?_, ?_⟩
        · rw [hun.1]
          exact lookup_setCol_self s.train n _ ctr1 hctr1
        · have h2 := hun.2
          rw [hte2] at h2
          simp only [Option.map_some'] at h2
          rw [Option.some.inj h2]
          exact lookup_setCol_self te n _ cte1 hcte1
        · intro i v hiv
          exact fillMissing_present _ _ _ _ hiv
        · intro i v hiv
          exact fillMissing_present _ _ _ _ hiv
      · have hctr2 : (⟨tr1, some te1⟩ : State α).train.lookup n = some ctr := by
          rw [hlr n hn2]
          exact hctr
        have hcte2 : te1.lookup n = some cte := by
          rw [hlte n hn2]
          exact hcte
        exact hmain n hn2 ctr cte hctr2 hcte2

/-- Closed witness for replace_missing_random_discrete_train_dist with a
constant sampler on a two-column train table and a one-column test table. -/
theorem replace_missing_random_discrete_train_dist_w :
    ∃ s2 te2,
      replace_missing_random_discrete (fun _ k => List.replicate k (7 : ℤ)) ["a"]
          ⟨⟨[("a", [some 1, none]), ("b", [some 2, some 2])]⟩,
            some ⟨[("a", [none, some 5])]⟩⟩ = Except.ok s2 ∧
      s2.test = some te2 ∧
      ∀ n ∈ (["a"] : List String), ∀ ctr cte : Col ℤ,
        (⟨[("a", [some 1, none]), ("b", [some 2, some 2])]⟩ : Table ℤ).lookup n = some ctr →
        (⟨[("a", [none, some 5])]⟩ : Table ℤ).lookup n = some cte →
        (s2.train.lookup n = some (ctr.1,
            fillMissing ctr.2 (List.replicate (countMissing ctr.2) 7)) ∧
         te2.lookup n = some (cte.1,
            fillMissing cte.2 (List.replicate (countMissing cte.2) 7)) ∧
         (∀ i v, ctr.2.get? i = some (some v) →
            (fillMissing ctr.2 (List.replicate (countMissing ctr.2) 7)).get? i
              = some (some v)) ∧
         (∀ i v, cte.2.get? i = some (some v) →
            (fillMissing cte.2 (List.replicate (countMissing cte.2) 7)).get? i
              = some (some v))) :=
  replace_missing_random_discrete_train_dist (fun _ k => List.replicate k (7 : ℤ)) ["a"]
    ⟨⟨[("a", [some 1, none]), ("b", [some 2, some 2])]⟩, some ⟨[("a", [none, some 5])]⟩⟩
    ⟨[("a", [none, some 5])]⟩ rfl (by decide) (by decide) (by decide)

theorem except_pure_bind {ε γ δ : Type} (x : γ) (f : γ → Except ε δ) :
    ((pure x : Except ε γ) >>= f) = f x := rfl

theorem lookup_append_left {α : Type} (T E : List (Col α)) (n : String)
    (h : (Table.lookup ⟨T⟩ n).isSome) :
    Table.lookup ⟨T ++ E⟩ n = Table.lookup ⟨T⟩ n := by
  show (T ++ E).find? (fun c => c.1 == n) = T.find? (fun c => c.1 == n)
  rw [List.find?_append]
  exact Option.or_of_isSome h

theorem string_append_cancel (a b c : String) (h : a ++ c = b ++ c) : a = b := by
  apply String.ext
  have hd := congrArg String.data h
  rw [String.data_append, String.data_append] at hd
  exact List.append_left_injective c.data hd

theorem colData_of_lookup {α : Type} (t : Table α) (n : String) (c : Col α)
    (h : t.lookup n = some c) : t.colData n = c.2 := by
  rw [Table.colData, h]
  rfl

theorem names_append {α : Type} (T E : List (Col α)) :
    Table.names (⟨T ++ E⟩ : Table α) = Table.names ⟨T⟩ ++ Table.names ⟨E⟩ := by
  simp [Table.names]

theorem addIndicator_append {α : Type} (mi vi : α) (n : String) (T E : List (Col α))
    (c : Col α) (hl : Table.lookup ⟨T⟩ n = some c)
    (hf1 : (n ++ "_missing") ∉ Table.names (⟨T⟩ : Table α))
    (hf2 : (n ++ "_missing") ∉ Table.names (⟨E⟩ : Table α)) :
    addIndicator mi vi true n ⟨T ++ E⟩ =
      Except.ok ⟨T ++ (E ++ [(n ++ "_missing", indicatorData mi vi c.2)])⟩ := by
  have hl2 : Table.lookup ⟨T ++ E⟩ n = some c := by
    rw [lookup_append_left T E n (by rw [hl]; rfl)]
    exact hl
  have hfresh : (n ++ "_missing") ∉ (Table.names (⟨T ++ E⟩ : Table α)) := by
    intro hmem
    rw [names_append] at hmem
    rcases List.mem_append.1 hmem with hm | hm
    · exact hf1 hm
    · exact hf2 hm
  have h1 : addIndicator mi vi true n ⟨T ++ E⟩
      = Except.ok (Table.setCol ⟨T ++ E⟩ (n ++ "_missing") (indicatorData mi vi c.2)) := by
    simp [addIndicator, hl2]
  have hset : Table.setCol ⟨T ++ E⟩ (n ++ "_missing") (indicatorData mi vi c.2)
      = ⟨(T ++ E) ++ [(n ++ "_missing", indicatorData mi vi c.2)]⟩ := by
    rw [Table.setCol, if_neg (fun hc => hfresh (by simpa using hc))]
  rw [h1, hset, List.append_assoc]

theorem rmi_aux {α : Type} (mi vi : α) (cols : List String) (Ttr Tte : List (Col α)) :
    ∀ (Etr Ete : List (Col α)), cols.Nodup →
    (∀ n ∈ cols, n ∈ Table.names (⟨Ttr⟩ : Table α)) →
    (∀ n ∈ cols, n ∈ Table.names (⟨Tte⟩ : Table α)) →
    (∀ n ∈ cols, (n ++ "_missing") ∉ Table.names (⟨Ttr⟩ : Table α) ∧
      (n ++ "_missing") ∉ Table.names (⟨Etr⟩ : Table α)) →
    (∀ n ∈ cols, (n ++ "_missing") ∉ Table.names (⟨Tte⟩ : Table α) ∧
      (n ++ "_missing") ∉ Table.names (⟨Ete⟩ : Table α)) →
    replace_missing_indicator mi vi true cols ⟨⟨Ttr ++ Etr⟩, some ⟨Tte ++ Ete⟩⟩ =
      Except.ok ⟨⟨Ttr ++ (Etr ++ cols.map (fun n =>
          (n ++ "_missing", indicatorData mi vi (Table.colData ⟨Ttr⟩ n))))⟩,
        some ⟨Tte ++ (Ete ++ cols.map (fun n =>
          (n ++ "_missing", indicatorData mi vi (Table.colData ⟨Tte⟩ n))))⟩⟩ := by
  induction cols with
  | nil =>
    intro Etr Ete _ _ _ _ _
    simp only [replace_missing_indicator, List.foldlM_nil, List.map_nil, List.append_nil]
    rfl
  | cons n1 rest ih =>
    intro Etr Ete hnd htr hts ftr fte
    obtain ⟨c1, hc1⟩ := Option.isSome_iff_exists.1
      ((Table.lookup_isSome_iff ⟨Ttr⟩ n1).2 (htr n1 (List.mem_cons_self n1 rest)))
    obtain ⟨c2, hc2⟩ := Option.isSome_iff_exists.1
      ((Table.lookup_isSome_iff ⟨Tte⟩ n1).2 (hts n1 (List.mem_cons_self n1 rest)))
    have hstep_tr := addIndicator_append mi vi n1 Ttr Etr c1 hc1
      (ftr n1 (List.mem_cons_self n1 rest)).1 (ftr n1 (List.mem_cons_self n1 rest)).2
    have hstep_te := addIndicator_append mi vi n1 Tte Ete c2 hc2
      (fte n1 (List.mem_cons_self n1 rest)).1 (fte n1 (List.mem_cons_self n1 rest)).2
    have hn1rest : n1 ∉ rest := (List.nodup_cons.1 hnd).1
    show (n1 :: rest).foldlM _ _ = _
    rw [List.foldlM_cons]
    show (do
      let tr ← addIndicator mi vi true n1 (⟨Ttr ++ Etr⟩ : Table α)
      let te2 ← addIndicator mi vi true n1 (⟨Tte ++ Ete⟩ : Table α)
      pure (⟨tr, some te2⟩ : State α)) >>=
        (fun init => List.foldlM
          (fun st n => do
            let tr ← addIndicator mi vi true n st.train
            match st.test with
            | some te => do
              let te2 ← addIndicator mi vi true n te
              pure (⟨tr, some te2⟩ : State α)
            | none => pure (⟨tr, none⟩ : State α)) init rest) = _
    rw [show (do
      let tr ← addIndicator mi vi true n1 (⟨Ttr ++ Etr⟩ : Table α)
      let te2 ← addIndicator mi vi true n1 (⟨Tte ++ Ete⟩ : Table α)
      pure (⟨tr, some te2⟩ : State α)) =
        Except.ok (⟨⟨Ttr ++ (Etr ++ [(n1 ++ "_missing", indicatorData mi vi c1.2)])⟩,
          some ⟨Tte ++ (Ete ++ [(n1 ++ "_missing", indicatorData mi vi c2.2)])⟩⟩ : State α)
      from by rw [hstep_tr, except_bind_ok, hstep_te, except_bind_ok]; rfl]
    rw [except_bind_ok]
    have hih := ih (Etr ++ [(n1 ++ "_missing", indicatorData mi vi c1.2)])
      (Ete ++ [(n1 ++ "_missing", indicatorData mi vi c2.2)])
      (List.nodup_cons.1 hnd).2
      (fun n hn => htr n (List.mem_cons_of_mem n1 hn))
      (fun n hn => hts n (List.mem_cons_of_mem n1 hn))
      (fun n hn => ⟨(ftr n (List.mem_cons_of_mem n1 hn)).1, by
        intro hmem
        rw [names_append] at hmem
        rcases List.mem_append.1 hmem with hm | hm
        · exact (ftr n (List.mem_cons_of_mem n1 hn)).2 hm
        · have heq : n ++ "_missing" = n1 ++ "_missing" := by
            simpa [Table.names] using hm
          exact hn1rest (string_append_cancel n n1 "_missing" heq ▸ hn)⟩)
      (fun n hn => ⟨(fte n (List.mem_cons_of_mem n1 hn)).1, by
        intro hmem
        rw [names_append] at hmem
        rcases List.mem_append.1 hmem with hm | hm
        · exact (fte n (List.mem_cons_of_mem n1 hn)).2 hm
        · have heq : n ++ "_missing" = n1 ++ "_missing" := by
            simpa [Table.names] using hm
          exact hn1rest (string_append_cancel n n1 "_missing" heq ▸ hn)⟩)
    rw [show (List.foldlM
        (fun (st : State α) n => do
          let tr ← addIndicator mi vi true n st.train
          match st.test with
          | some te => do
            let te2 ← addIndicator mi vi true n te
            pure (⟨tr, some te2⟩ : State α)
          | none => pure (⟨tr, none⟩ : State α))
        (⟨⟨Ttr ++ (Etr ++ [(n1 ++ "_missing", indicatorData mi vi c1.2)])⟩,
          some ⟨Tte ++ (Ete ++ [(n1 ++ "_missing", indicatorData mi vi c2.2)])⟩⟩ : State α)
        rest) =
      replace_missing_indicator mi vi true rest
        ⟨⟨Ttr ++ (Etr ++ [(n1 ++ "_missing", indicatorData mi vi c1.2)])⟩,
          some ⟨Tte ++ (Ete ++ [(n1 ++ "_missing", indicatorData mi vi c2.2)])⟩⟩ from rfl]
    rw [hih]
    simp only [List.map_cons]
    rw [colData_of_lookup ⟨Ttr⟩ n1 c1 hc1, colData_of_lookup ⟨Tte⟩ n1 c2 hc2]
    simp [List.append_assoc]

/-- C5: with keep_col left at its default, replace_missing_indicator appends
exactly one new column per target column, named target ++ "_missing", whose
entry in each row is the missing indicator where the target entry is missing
and the valid indicator elsewhere, on the train table and likewise on the
test table.  The targets are assumed distinct, present in both tables, and
their indicator names fresh. -/
theorem replace_missing_indicator_spec {α : Type} (mi vi : α) (cols : List String)
    (s : State α) (te : Table α) (hte : s.test = some te) (hnd : cols.Nodup)
    (htr : ∀ n ∈ cols, n ∈ s.train.names) (hts : ∀ n ∈ cols, n ∈ te.names)
    (ftr : ∀ n ∈ cols, (n ++ "_missing") ∉ s.train.names)
    (fte : ∀ n ∈ cols, (n ++ "_missing") ∉ te.names) :
    replace_missing_indicator mi vi true cols s =
      Except.ok ⟨⟨s.train.cols ++ cols.map (fun n =>
          (n ++ "_missing", indicatorData mi vi (s.train.colData n)))⟩,
        some ⟨te.cols ++ cols.map (fun n =>
          (n ++ "_missing", indicatorData mi vi (te.colData n)))⟩⟩ := by
  obtain ⟨str, stest⟩ := s
  have hte2 : stest = some te := hte
  subst hte2
  have haux := rmi_aux mi vi cols str.cols te.cols [] [] hnd
    (fun n hn => htr n hn) (fun n hn => hts n hn)
    (fun n hn => ⟨ftr n hn, by simp [Table.names]⟩)
    (fun n hn => ⟨fte n hn, by simp [Table.names]⟩)
  rw [List.append_nil, List.append_nil] at haux
  exact haux

/-- Closed witness for replace_missing_indicator_spec: one target column on a
two-row train table and a one-row test table. -/
theorem replace_missing_indicator_spec_w :
    replace_missing_indicator (1 : ℤ) 0 true ["a"]
        ⟨⟨[("a", [some 5, none])]⟩, some ⟨[("a", [none])]⟩⟩ =
      Except.ok ⟨⟨[("a", [some (5 : ℤ), none]), ("a_missing", [some 0, some 1])]⟩,
        some ⟨[("a", [(none : Cell ℤ)]), ("a_missing", [some 1])]⟩⟩ := by
  have h := replace_missing_indicator_spec (1 : ℤ) 0 ["a"]
    ⟨⟨[("a", [some 5, none])]⟩, some ⟨[("a", [none])]⟩⟩ ⟨[("a", [none])]⟩
    rfl (by decide) (by decide) (by decide) (by decide) (by decide)
  rw [h]
  rfl
